import Mathlib

/-!
# Verification of the `axis` crate (src/lib.rs, src/effects.rs)

Shallow embedding of the axis/effect-chain library.

Conventions of the embedding:
* `u16` values are `ℕ`; where a theorem needs the 16-bit bound it carries an
  explicit `≤ 65535` (or `≤ 32767` for values whose `as i16` reinterpretation
  must be the identity) hypothesis.
* `u16::saturating_sub` is truncated `ℕ` subtraction (which saturates at 0).
* Plain `u16` subtraction inside `Axis::output` is modelled by `wsub`,
  the wrapping (mod 2^16) subtraction of release builds; every theorem below
  that touches it carries hypotheses under which it coincides with exact
  subtraction, so debug builds (which would panic on underflow) agree.
* `as i16` reinterpretation of a `u16` is `toI16`; `i16` wrapping arithmetic
  is `i16wrap`.
* `f32` arithmetic inside `Axis::output` is modelled faithfully: every
  operation computes the exact rational result and rounds it with `f32round`,
  IEEE-754 round-to-nearest ties-to-even at 24 significand bits.  `f32round`
  uses an unbounded exponent range, which coincides with binary32 whenever the
  value is in the normal range; every value reachable inside `Axis::output`
  is 0 (exact in IEEE too) or lies in `[2^-16, 2^34)`, well inside the normal
  range, and the `u16`-to-`f32` casts are exact (`u16 < 2^24`).  The division
  by zero when `max = min` produces inf/NaN, whose floored `as u16` cast is 0:
  the `some 0` branch of `Axis.output`.  `f32::floor` on a dyadic rational is
  exact (`Rat.floor`) and the saturating `as u16` cast of the floored float is
  `f32_as_u16` (NaN casts to 0).
* `Lerp::update` keeps exact `ℚ` arithmetic; it is only ever evaluated here
  on the concrete Lerp(0.5) scenario, whose intermediates (0, 50, 75, 87.5,
  93.75, scale 1.0) are all dyadic rationals exactly representable in `f32`,
  so the exact model is bit-for-bit the `f32` computation there.
* `Ord::clamp` panics when the lower bound exceeds the upper bound (a real
  `assert!`, present in every build profile); `Axis.output_ranged` therefore
  returns `Option ℕ`, `none` standing for that panic.
-/

/-- Reinterpretation of a `u16` bit pattern as an `i16` (`value as i16`). -/
def toI16 (x : ℕ) : ℤ := if x < 32768 then (x : ℤ) else (x : ℤ) - 65536

/-- Wrap an integer into the `i16` range, the release-build semantics of
overflowing `i16` arithmetic. -/
def i16wrap (z : ℤ) : ℤ := (z + 32768) % 65536 - 32768

/-- Release-build `i16::abs`: `i16::MIN.abs()` wraps back to `i16::MIN`. -/
def i16abs (z : ℤ) : ℤ := i16wrap |z|

/-- Wrapping `u16` subtraction (`a - b` in a release build). -/
def wsub (a b : ℕ) : ℕ := (a % 65536 + 65536 - b % 65536) % 65536

/-- Saturating cast of an (already floored) float value to `u16`:
`x as u16` clamps into `[0, 65535]`. -/
def f32_as_u16 (x : ℤ) : ℕ := (min (max x 0) 65535).toNat

/-- Round a rational to the nearest integer, ties to even — the tie-breaking
rule of IEEE-754 round-to-nearest. -/
def rnd_half_even (q : ℚ) : ℤ :=
  if q - (Rat.floor q : ℚ) < 1 / 2 then Rat.floor q
  else if 1 / 2 < q - (Rat.floor q : ℚ) then Rat.floor q + 1
  else if Rat.floor q % 2 = 0 then Rat.floor q else Rat.floor q + 1

/-- Round a positive rational to 24 significant bits (the `f32` significand):
scale into the binade `[2^23, 2^24)`, round the significand to an integer,
ties to even, scale back. -/
def f32roundPos (q : ℚ) : ℚ :=
  (rnd_half_even (q * 2 ^ (23 - Int.log 2 q)) : ℚ) * 2 ^ (Int.log 2 q - 23)

/-- IEEE-754 binary32 round-to-nearest-even, with unbounded exponent range:
this agrees with `f32` rounding whenever the result is in the normal range,
which holds for every value reachable inside `Axis::output` (each is 0, which
IEEE rounds exactly, or lies in `[2^-16, 2^34)`). -/
def f32round (q : ℚ) : ℚ :=
  if q = 0 then 0
  else if q < 0 then -f32roundPos (-q)
  else f32roundPos q

/-- IEEE `f32` addition: the exact sum, rounded. -/
def f32add (a b : ℚ) : ℚ := f32round (a + b)

/-- IEEE `f32` multiplication: the exact product, rounded. -/
def f32mul (a b : ℚ) : ℚ := f32round (a * b)

/-- IEEE `f32` division: the exact quotient, rounded. -/
def f32div (a b : ℚ) : ℚ := f32round (a / b)

/-- Constant `MAX_EFFECT_SIZE` from src/lib.rs: max effect size in bytes that fits in
a `DynEffect`. -/
def MAX_EFFECT_SIZE : ℕ := 16

/-- The size guard of `DynEffect::new::<T>` (src/lib.rs): it reads
`size_of::<T>()` and panics iff that exceeds `MAX_EFFECT_SIZE`; otherwise it
writes the effect into the inline buffer and returns the handle.  The guard
depends on the concrete type only through its size, so the embedding takes the
size as the argument; `none` models the panic. -/
def dynEffectNew (sizeOfT : ℕ) : Option ℕ :=
  if MAX_EFFECT_SIZE < sizeOfT then none else some sizeOfT

/-- Struct `Lerp` (src/effects.rs): linear interpolation filter. -/
structure Lerp where
  smoothed_value : Option ℚ
  lerp_factor : ℚ
deriving DecidableEq

/-- Constructor `Lerp::new` (src/effects.rs). -/
def Lerp.new (factor : ℚ) : Lerp := ⟨none, factor⟩

/-- Method `update` of `impl Effect for Lerp` (src/effects.rs): seed the smoothed value with the
input when absent, else move it toward the input by `lerp_factor`; store the
float and return its floor cast to `u16`. -/
def Lerp.update (l : Lerp) (value : ℕ) : ℕ × Lerp :=
  let sv : ℚ := l.smoothed_value.getD (value : ℚ)
  let new_value : ℚ := sv + ((value : ℚ) - sv) * l.lerp_factor
  (f32_as_u16 (Rat.floor new_value), { l with smoothed_value := some new_value })

/-- Struct `Step` (src/effects.rs). -/
structure Step where
  sensivity : ℕ
  old_value : ℕ
deriving DecidableEq

/-- Constructor `Step::new` (src/effects.rs): the last accepted value starts at 0. -/
def Step.new (sensivity : ℕ) : Step := ⟨sensivity, 0⟩

/-- Method `update` of `impl Effect for Step` (src/effects.rs): accept the input iff
`(value as i16 - old_value as i16).abs() >= sensivity as i16`, all in `i16`
arithmetic. -/
def Step.update (s : Step) (value : ℕ) : ℕ × Step :=
  if toI16 s.sensivity ≤ i16abs (i16wrap (toI16 value - toI16 s.old_value)) then
    (value, { s with old_value := value })
  else
    (s.old_value, s)

/-- Struct `DynEffect` (src/lib.rs) erases the concrete effect behind a fixed 16-byte
buffer and a dispatch function; over the crate's own effects the erased state
is exactly one of the two concrete states, so the embedding is their sum. -/
inductive DynEffect where
  | lerp (l : Lerp)
  | step (s : Step)
deriving DecidableEq

/-- Method `DynEffect::update` (src/lib.rs): dispatch to the wrapped effect's
`update`. -/
def DynEffect.update : DynEffect → ℕ → ℕ × DynEffect
  | .lerp l, v => let p := l.update v; (p.1, .lerp p.2)
  | .step s, v => let p := s.update v; (p.1, .step p.2)

/-- Struct `Axis` (src/lib.rs). -/
structure Axis where
  min : ℕ
  max : ℕ
  reversed : Bool
  step_filter_factor : ℕ
  old_value : ℕ
  value : ℕ
deriving DecidableEq

/-- Constructor `Axis::new` (src/lib.rs): dead-zone disabled, working value and
last-accepted value both start at `min`. -/
def Axis.new (mn mx : ℕ) (reversed : Bool) : Axis :=
  ⟨mn, mx, reversed, 0, mn, mn⟩

/-- Method `Axis::step_filter` (src/lib.rs): pass through untouched when the factor
is 0, otherwise the `Step` algorithm with the factor as sensitivity, on the
axis's own `old_value`. -/
def Axis.step_filter (a : Axis) (value : ℕ) : ℕ × Axis :=
  if a.step_filter_factor = 0 then (value, a)
  else if toI16 a.step_filter_factor ≤
      i16abs (i16wrap (toI16 value - toI16 a.old_value)) then
    (value, { a with old_value := value })
  else
    (a.old_value, a)

/-- Fold a value through a chain of erased effects in order, returning the
final value and the mutated chain. -/
def chainRun (v : ℕ) : List DynEffect → ℕ × List DynEffect
  | [] => (v, [])
  | e :: rest =>
    let p := e.update v
    let q := chainRun p.1 rest
    (q.1, p.2 :: q.2)

/-- Method `Axis::update` (src/lib.rs): working value becomes the step-filtered raw
reading, then each chain effect updates it in sequence. -/
def Axis.update (a : Axis) (value : ℕ) (chain : List DynEffect) :
    Axis × List DynEffect :=
  let p := a.step_filter value
  let q := chainRun p.1 chain
  ({ p.2 with value := q.1 }, q.2)

/-- Method `Axis::output_ranged` (src/lib.rs): reflect the working value when
reversed (with saturating subtractions), then `clamp` it into `[min, max]`;
`clamp` asserts `min ≤ max` and panics (`none`) otherwise. -/
def Axis.output_ranged (a : Axis) : Option ℕ :=
  let normalized := if a.reversed then a.max - (a.value - a.min) else a.value
  if a.max < a.min then none else some (Max.max a.min (Min.min normalized a.max))

/-- Method `Axis::output` (src/lib.rs): linear rescale of `output_ranged` from
`[min, max]` into `[range_min, range_max]` in `f32` arithmetic (the
`u16`-to-`f32` casts are exact since `u16 < 2^24`; each operation rounds its
exact result), floored.  When `max = min` the `f32` scale division is by zero,
the result is NaN (`0 * inf` or `0/0` propagated), and `NaN.floor() as u16`
is 0. -/
def Axis.output (a : Axis) (range_min range_max : ℕ) : Option ℕ :=
  match a.output_ranged with
  | none => none
  | some v =>
    if a.max = a.min then some 0
    else
      let scale : ℚ := f32div ((wsub range_max range_min : ℕ) : ℚ) ((a.max - a.min : ℕ) : ℚ)
      let result : ℚ := f32add (range_min : ℚ) (f32mul ((v - a.min : ℕ) : ℚ) scale)
      some (f32_as_u16 (Rat.floor result))

/-- The identity-chain read-out as the claim words it: the raw value clamped
into `[min, max]`, linearly rescaled from `[min, max]` into
`[range_min, range_max]` over the reals, floored to an integer. -/
def specRescale (mn mx raw rmin rmax : ℕ) : ℤ :=
  Rat.floor ((rmin : ℚ) +
    (((Max.max mn (Min.min raw mx) : ℕ) : ℚ) - (mn : ℚ)) *
      (((rmax : ℚ) - (rmin : ℚ)) / ((mx : ℚ) - (mn : ℚ))))

/-- The value of `specRescale` landed back in the `u16` domain. -/
def specRescaleNat (mn mx raw rmin rmax : ℕ) : ℕ :=
  (specRescale mn mx raw rmin rmax).toNat

/-- The `f32` rescale expression of `Axis::output`, with the `u16`
subtractions already resolved to exact `ℕ` subtraction. -/
def f32rescale (mn mx v rmin rmax : ℕ) : ℚ :=
  f32add (rmin : ℚ) (f32mul ((v - mn : ℕ) : ℚ)
    (f32div ((rmax - rmin : ℕ) : ℚ) ((mx - mn : ℕ) : ℚ)))

/-- Read-out as a state transition: `Axis::output` takes `&self`, so the model
returns the result together with the (unchanged) axis. -/
def Axis.readout (a : Axis) (range_min range_max : ℕ) : Option ℕ × Axis :=
  (a.output range_min range_max, a)

/-- Repeated consecutive read-outs with the same arguments, collecting results. -/
def Axis.readoutN (a : Axis) (range_min range_max : ℕ) : ℕ → List (Option ℕ) × Axis
  | 0 => ([], a)
  | n + 1 =>
    let p := a.readout range_min range_max
    let q := p.2.readoutN range_min range_max n
    (p.1 :: q.1, q.2)

/-- Modelled from the spec: the Ramp-Smooth transform (`Smooth` in §6 of the
spec) is named by the spec but absent from src/.  §4.4: `update(target)` sets
the stored target, advances `current` by `speed` with saturating `u16`
addition, then clamps `current` to at most the current target and at least the
domain minimum (0). -/
structure RampSmooth where
  current : ℕ
  target : ℕ
  speed : ℕ
deriving DecidableEq

/-- Modelled from the spec (§4.4): one Ramp-Smooth update call. -/
def RampSmooth.update (s : RampSmooth) (target : ℕ) : ℕ × RampSmooth :=
  let advanced := min (s.current + s.speed) 65535
  let newCurrent := min advanced target
  (newCurrent, { s with current := newCurrent, target := target })

/-- Run a raw-input sequence through an axis with a chain, reading
`output 0 128` after each ingest. -/
def runOutputs : Axis → List DynEffect → List ℕ → List (Option ℕ)
  | _, _, [] => []
  | a, c, x :: xs =>
    let p := a.update x c
    p.1.output 0 128 :: runOutputs p.1 p.2 xs

/-! ## Helper lemmas -/

theorem toI16_of_le (x : ℕ) (h : x ≤ 32767) : toI16 x = (x : ℤ) := by
  simp [toI16]; omega

theorem i16wrap_of_bounds (z : ℤ) (h1 : -32768 ≤ z) (h2 : z ≤ 32767) :
    i16wrap z = z := by
  unfold i16wrap; omega

theorem i16abs_of_bounds (z : ℤ) (h1 : -32767 ≤ z) (h2 : z ≤ 32767) :
    i16abs z = |z| := by
  unfold i16abs
  rcases abs_cases z with ⟨he, _⟩ | ⟨he, _⟩ <;> rw [he] <;>
    exact i16wrap_of_bounds _ (by omega) (by omega)

theorem wsub_of_le (a b : ℕ) (hb : b ≤ a) (ha : a ≤ 65535) :
    wsub a b = a - b := by
  unfold wsub; omega

theorem ratFloor_eq_intFloor (q : ℚ) : Rat.floor q = Int.floor q :=
  le_antisymm (Int.le_floor.mpr (Rat.le_floor.mp le_rfl))
    (Rat.le_floor.mpr (Int.floor_le q))

/-! ## Claim theorems -/

/-- C2: `DynEffect::new` panics exactly when the concrete transform's size
exceeds the fixed capacity `MAX_EFFECT_SIZE = 16`; for sizes at most 16 it
succeeds and never panics. -/
theorem dynEffectNew_guard (sizeOfT : ℕ) :
    dynEffectNew sizeOfT = none ↔ MAX_EFFECT_SIZE < sizeOfT := by
  unfold dynEffectNew
  split <;> simp_all

theorem dynEffectNew_guard_witness :
    dynEffectNew 17 = none ∧ dynEffectNew 16 = some 16 :=
  ⟨(dynEffectNew_guard 17).mpr (by decide), by decide⟩

/-- C10: `Step::new(s)` seeds the last accepted value with 0, so the first
update on a fresh `Step` whose input is sub-threshold under the
implementation's comparison returns 0 rather than the input. -/
theorem step_new_baseline (s x : ℕ)
    (hsub : i16abs (i16wrap (toI16 x - toI16 0)) < toI16 s) :
    (Step.new s).old_value = 0 ∧ ((Step.new s).update x).1 = 0 := by
  refine ⟨rfl, ?_⟩
  unfold Step.update
  simp only [Step.new]
  rw [if_neg (by exact not_le.mpr hsub)]

theorem step_new_baseline_witness :
    i16abs (i16wrap (toI16 5 - toI16 0)) < toI16 10 ∧
      (Step.new 10).old_value = 0 ∧ ((Step.new 10).update 5).1 = 0 :=
  ⟨by decide, step_new_baseline 10 5 (by decide)⟩

/-- C3 counterexample: the source compares `i16` reinterpretations, not the
absolute difference of the `u16` values.  With last accepted 0, sensitivity
26000 and input 40000 the true absolute difference is 40000 ≥ 26000, so the
claim requires the input to be accepted and returned; the code computes
`(40000 as i16) - (0 as i16) = -25536`, whose absolute value 25536 is below
26000, and returns the old value 0 instead. -/
theorem step_hysteresis_counterexample :
    (26000 : ℤ) ≤ |(40000 : ℤ) - (0 : ℤ)| ∧
      (Step.update ⟨26000, 0⟩ 40000).1 = 0 ∧
      (Step.update ⟨26000, 0⟩ 40000).2 = ⟨26000, 0⟩ := by decide

/-- C3 amended: restricted to values and sensitivity at most 32767 (so the
`as i16` reinterpretations are the identity and no signed overflow occurs),
`Step::update` returns the input and accepts it as the new baseline exactly
when the absolute difference from the last accepted value is at least the
sensitivity, and otherwise returns the last accepted value with the state
unchanged; `Axis::step_filter` implements the same algorithm whenever its
factor is nonzero (a zero factor bypasses the filter entirely: the input is
returned and the last-accepted value is left untouched). -/
theorem step_hysteresis_law (S last x : ℕ) (a : Axis)
    (hS : S ≤ 32767) (hl : last ≤ 32767) (hx : x ≤ 32767) :
    (Step.update ⟨S, last⟩ x =
      if (S : ℤ) ≤ |(x : ℤ) - (last : ℤ)| then (x, ⟨S, x⟩) else (last, ⟨S, last⟩)) ∧
    (1 ≤ S → a.step_filter_factor = S → a.old_value = last →
      a.step_filter x =
        if (S : ℤ) ≤ |(x : ℤ) - (last : ℤ)| then (x, { a with old_value := x })
        else (last, a)) := by
  have hx' : toI16 x = (x : ℤ) := toI16_of_le x hx
  have hl' : toI16 last = (last : ℤ) := toI16_of_le last hl
  have hS' : toI16 S = (S : ℤ) := toI16_of_le S hS
  have hd1 : -(32767 : ℤ) ≤ (x : ℤ) - (last : ℤ) := by omega
  have hd2 : (x : ℤ) - (last : ℤ) ≤ 32767 := by omega
  have hw : i16wrap ((x : ℤ) - (last : ℤ)) = (x : ℤ) - (last : ℤ) :=
    i16wrap_of_bounds _ (by omega) hd2
  have ha : i16abs ((x : ℤ) - (last : ℤ)) = |(x : ℤ) - (last : ℤ)| :=
    i16abs_of_bounds _ hd1 hd2
  constructor
  · unfold Step.update
    simp only [hx', hl', hS', hw, ha]
  · intro h1 h2 h3
    unfold Axis.step_filter
    rw [if_neg (by omega), h2, h3]
    simp only [hx', hl', hS', hw, ha]

theorem step_hysteresis_law_witness :
    (Step.update ⟨10, 0⟩ 25 = (25, ⟨10, 25⟩)) ∧
      (Axis.step_filter ⟨0, 128, false, 10, 0, 0⟩ 25 =
        (25, ⟨0, 128, false, 10, 25, 0⟩)) := by
  have h := step_hysteresis_law 10 0 25 ⟨0, 128, false, 10, 0, 0⟩
    (by decide) (by decide) (by decide)
  refine ⟨?_, ?_⟩
  · rw [h.1]; decide
  · rw [h.2 (by decide) rfl rfl]; decide

/-- C7 (spec-modelled): one Ramp-Smooth update never exceeds the supplied
target, advances by at most `speed`, stores the target, and (given the
invariant that the current output is at most the stored target) never
decreases when the target does not decrease. -/
theorem rampSmooth_laws (s : RampSmooth) (target : ℕ) :
    (s.update target).1 = (s.update target).2.current ∧
    (s.update target).2.current ≤ target ∧
    (s.update target).2.current ≤ s.current + s.speed ∧
    (s.update target).2.target = target ∧
    (s.current ≤ 65535 → s.current ≤ s.target → s.target ≤ target →
      s.current ≤ (s.update target).2.current) := by
  unfold RampSmooth.update
  refine ⟨rfl, ?_, ?_, rfl, ?_⟩ <;> simp only [] <;> omega

theorem rampSmooth_laws_witness :
    (RampSmooth.update ⟨3, 10, 4⟩ 20).2.current ≤ 20 ∧
      (3 : ℕ) ≤ (RampSmooth.update ⟨3, 10, 4⟩ 20).2.current :=
  ⟨(rampSmooth_laws ⟨3, 10, 4⟩ 20).2.1,
    (rampSmooth_laws ⟨3, 10, 4⟩ 20).2.2.2.2 (by decide) (by decide) (by decide)⟩

/-- Read-outs collect to a replicated list and leave the axis untouched. -/
theorem axis_readoutN_spec (a : Axis) (rmin rmax : ℕ) : ∀ n : ℕ,
    (a.readoutN rmin rmax n).2 = a ∧
    (a.readoutN rmin rmax n).1 = List.replicate n (a.output rmin rmax) := by
  intro n
  induction n with
  | zero => exact ⟨rfl, rfl⟩
  | succ k ih =>
    unfold Axis.readoutN
    exact ⟨ih.1, by rw [List.replicate_succ]; exact congrArg _ ih.2⟩

/-- C8: read-out is pure — `Axis::output` takes the axis by shared reference
and mutates nothing, so any number of consecutive read-outs with the same
arguments leaves the axis unchanged and returns the same result each time. -/
theorem axis_output_pure (a : Axis) (rmin rmax n : ℕ) :
    (a.readout rmin rmax).2 = a ∧
    (a.readoutN rmin rmax n).2 = a ∧
    (a.readoutN rmin rmax n).1 = List.replicate n (a.output rmin rmax) :=
  ⟨rfl, (axis_readoutN_spec a rmin rmax n).1, (axis_readoutN_spec a rmin rmax n).2⟩


/-! ## Facts about the rounding primitives -/

theorem rnd_half_even_intCast (k : ℤ) : rnd_half_even (k : ℚ) = k := by
  unfold rnd_half_even
  rw [ratFloor_eq_intFloor, Int.floor_intCast]
  rw [if_pos (by norm_num)]

theorem rnd_half_even_floor_le (q : ℚ) :
    Int.floor q ≤ rnd_half_even q ∧ rnd_half_even q ≤ Int.floor q + 1 := by
  unfold rnd_half_even
  rw [ratFloor_eq_intFloor]
  split
  · omega
  split
  · omega
  split
  · omega
  · omega

theorem rnd_half_even_err (q : ℚ) : |(rnd_half_even q : ℚ) - q| ≤ 1 / 2 := by
  have hf1 : (Int.floor q : ℚ) ≤ q := Int.floor_le q
  have hf2 : q < (Int.floor q : ℚ) + 1 := Int.lt_floor_add_one q
  unfold rnd_half_even
  rw [ratFloor_eq_intFloor]
  split
  · rw [abs_le]; constructor <;> linarith
  split
  · push_cast
    rw [abs_le]; constructor <;> linarith
  split
  · rw [abs_le]
    constructor <;> [linarith; linarith [le_of_not_lt (by assumption : ¬ q - (Int.floor q : ℚ) < 1 / 2)]]
  · push_cast
    rw [abs_le]
    constructor <;> [linarith [le_of_not_lt (by assumption : ¬ 1 / 2 < q - (Int.floor q : ℚ))]; linarith]

theorem rnd_half_even_eq_succ_iff (q : ℚ) :
    rnd_half_even q = Int.floor q + 1 ↔
      (1 / 2 < q - (Int.floor q : ℚ) ∨
        (q - (Int.floor q : ℚ) = 1 / 2 ∧ ¬ Int.floor q % 2 = 0)) := by
  unfold rnd_half_even
  rw [ratFloor_eq_intFloor]
  split
  · rename_i h1
    constructor
    · intro h; omega
    · intro h
      rcases h with h | h
      · linarith
      · linarith [h.1]
  split
  · rename_i h1 h2
    constructor
    · intro _; exact Or.inl h2
    · intro _; rfl
  split
  · rename_i h1 h2 h3
    constructor
    · intro h; omega
    · intro hh
      rcases hh with hh | hh
      · exact absurd hh h2
      · exact absurd h3 hh.2
  · rename_i h1 h2 h3
    have hr : q - (Int.floor q : ℚ) = 1 / 2 :=
      le_antisymm (le_of_not_lt h2) (le_of_not_lt h1)
    constructor
    · intro _; exact Or.inr ⟨hr, h3⟩
    · intro _; rfl

theorem rnd_half_even_mono {x y : ℚ} (h : x ≤ y) :
    rnd_half_even x ≤ rnd_half_even y := by
  have hfl : Int.floor x ≤ Int.floor y := Int.floor_le_floor h
  rcases lt_or_eq_of_le hfl with hlt | heq
  · have h1 := rnd_half_even_floor_le x
    have h2 := rnd_half_even_floor_le y
    omega
  · by_cases hx : rnd_half_even x = Int.floor x + 1
    · have hxc := (rnd_half_even_eq_succ_iff x).mp hx
      have hy : rnd_half_even y = Int.floor y + 1 := by
        apply (rnd_half_even_eq_succ_iff y).mpr
        have hyx : x - (Int.floor x : ℚ) ≤ y - (Int.floor y : ℚ) := by
          rw [← heq]; linarith
        rcases hxc with hgt | ⟨heq2, hodd⟩
        · exact Or.inl (lt_of_lt_of_le hgt hyx)
        · rcases lt_or_eq_of_le (show (1 : ℚ) / 2 ≤ y - (Int.floor y : ℚ) by
              rw [← heq2]; exact hyx) with hgt | heq3
          · exact Or.inl hgt
          · exact Or.inr ⟨heq3.symm, by rw [← heq]; exact hodd⟩
      omega
    · have h1 := rnd_half_even_floor_le x
      have h2 := rnd_half_even_floor_le y
      omega

theorem two_zpow_pos (e : ℤ) : (0 : ℚ) < 2 ^ e := zpow_pos (by norm_num) e

theorem two_zpow_mul (a b : ℤ) : (2 : ℚ) ^ a * 2 ^ b = 2 ^ (a + b) :=
  (zpow_add₀ (by norm_num : (2 : ℚ) ≠ 0) a b).symm

/-- Uniqueness of the binade: if `2^e ≤ q < 2^(e+1)` then `Int.log 2 q = e`. -/
theorem int_log2_eq {q : ℚ} (e : ℤ) (h1 : (2 : ℚ) ^ e ≤ q) (h2 : q < (2 : ℚ) ^ (e + 1)) :
    Int.log 2 q = e := by
  have hq : 0 < q := lt_of_lt_of_le (two_zpow_pos e) h1
  have hle : (2 : ℚ) ^ Int.log 2 q ≤ q := Int.zpow_log_le_self (by norm_num) hq
  have hlt : q < (2 : ℚ) ^ (Int.log 2 q + 1) := Int.lt_zpow_succ_log_self (by norm_num) q
  by_contra hne
  rcases lt_or_gt_of_ne hne with hl | hl
  · have : (2 : ℚ) ^ (Int.log 2 q + 1) ≤ (2 : ℚ) ^ e :=
      zpow_le_zpow_right₀ (by norm_num) (by omega)
    linarith
  · have : (2 : ℚ) ^ (e + 1) ≤ (2 : ℚ) ^ (Int.log 2 q) :=
      zpow_le_zpow_right₀ (by norm_num) (by omega)
    linarith

/-- Evaluation of `f32round` once the binade of the argument is known. -/
theorem f32round_pos_eval {q : ℚ} (e : ℤ) (h1 : (2 : ℚ) ^ e ≤ q) (h2 : q < (2 : ℚ) ^ (e + 1)) :
    f32round q = (rnd_half_even (q * 2 ^ (23 - e)) : ℚ) * 2 ^ (e - 23) := by
  have hq : 0 < q := lt_of_lt_of_le (two_zpow_pos e) h1
  unfold f32round f32roundPos
  rw [if_neg hq.ne', if_neg (not_lt.mpr hq.le), int_log2_eq e h1 h2]

theorem f32round_zero : f32round 0 = 0 := by
  unfold f32round
  rw [if_pos rfl]

/-- The scaled significand lies in `[2^23, 2^24)`. -/
theorem significand_bounds {q : ℚ} (e : ℤ) (h1 : (2 : ℚ) ^ e ≤ q) (h2 : q < (2 : ℚ) ^ (e + 1)) :
    (2 : ℚ) ^ (23 : ℤ) ≤ q * 2 ^ (23 - e) ∧ q * 2 ^ (23 - e) < (2 : ℚ) ^ (24 : ℤ) := by
  constructor
  · have := mul_le_mul_of_nonneg_right h1 (two_zpow_pos (23 - e)).le
    rwa [two_zpow_mul, show e + (23 - e) = (23 : ℤ) by ring] at this
  · have := mul_lt_mul_of_pos_right h2 (two_zpow_pos (23 - e))
    rwa [two_zpow_mul, show e + 1 + (23 - e) = (24 : ℤ) by ring] at this

/-- Relative error of `f32round`: at most one part in `2^24`. -/
theorem f32round_err {q : ℚ} (hq : 0 ≤ q) : |f32round q - q| ≤ q / 2 ^ 24 := by
  rcases eq_or_lt_of_le hq with h | h
  · rw [← h, f32round_zero]
    norm_num
  · have h1 : (2 : ℚ) ^ Int.log 2 q ≤ q := Int.zpow_log_le_self (by norm_num) h
    have h2 : q < (2 : ℚ) ^ (Int.log 2 q + 1) := Int.lt_zpow_succ_log_self (by norm_num) q
    rw [f32round_pos_eval (Int.log 2 q) h1 h2]
    have herr := rnd_half_even_err (q * 2 ^ (23 - Int.log 2 q))
    have hback : q * 2 ^ (23 - Int.log 2 q) * 2 ^ (Int.log 2 q - 23) = q := by
      rw [mul_assoc, two_zpow_mul, show 23 - Int.log 2 q + (Int.log 2 q - 23) = 0 by ring,
        zpow_zero, mul_one]
    calc |(rnd_half_even (q * 2 ^ (23 - Int.log 2 q)) : ℚ) * 2 ^ (Int.log 2 q - 23) - q|
        = |((rnd_half_even (q * 2 ^ (23 - Int.log 2 q)) : ℚ) -
            q * 2 ^ (23 - Int.log 2 q)) * 2 ^ (Int.log 2 q - 23)| := by
          rw [sub_mul, hback]
      _ = |(rnd_half_even (q * 2 ^ (23 - Int.log 2 q)) : ℚ) -
            q * 2 ^ (23 - Int.log 2 q)| * 2 ^ (Int.log 2 q - 23) := by
          rw [abs_mul, abs_of_pos (two_zpow_pos _)]
      _ ≤ (1 / 2) * 2 ^ (Int.log 2 q - 23) :=
          mul_le_mul_of_nonneg_right herr (two_zpow_pos _).le
      _ = 2 ^ (Int.log 2 q - 24) := by
          rw [show (1 : ℚ) / 2 = 2 ^ (-1 : ℤ) by norm_num, two_zpow_mul]
          congr 1
          ring
      _ ≤ q / 2 ^ 24 := by
          rw [div_eq_mul_inv, show ((2 : ℚ) ^ (24 : ℕ))⁻¹ = 2 ^ (-24 : ℤ) by
            rw [← zpow_natCast (2 : ℚ) 24, ← zpow_neg]
            norm_num]
          calc (2 : ℚ) ^ (Int.log 2 q - 24) = 2 ^ (Int.log 2 q) * 2 ^ (-24 : ℤ) := by
                rw [two_zpow_mul]; ring_nf
            _ ≤ q * 2 ^ (-24 : ℤ) := mul_le_mul_of_nonneg_right h1 (two_zpow_pos _).le

theorem f32round_le_mul {q : ℚ} (hq : 0 ≤ q) : f32round q ≤ q * (1 + 1 / 2 ^ 24) := by
  have h := abs_le.mp (f32round_err hq)
  have : q / 2 ^ 24 = q * (1 / 2 ^ 24) := by ring
  nlinarith [h.2]

theorem mul_le_f32round {q : ℚ} (hq : 0 ≤ q) : q * (1 - 1 / 2 ^ 24) ≤ f32round q := by
  have h := abs_le.mp (f32round_err hq)
  nlinarith [h.1]

theorem f32round_nonneg {q : ℚ} (hq : 0 ≤ q) : 0 ≤ f32round q := by
  have h := mul_le_f32round hq
  nlinarith

/-- Values already on the 24-bit grid round to themselves. -/
theorem f32round_eq_self {q : ℚ} (e k : ℤ) (h1 : (2 : ℚ) ^ e ≤ q) (h2 : q < (2 : ℚ) ^ (e + 1))
    (hk : q * 2 ^ (23 - e) = (k : ℚ)) : f32round q = q := by
  rw [f32round_pos_eval e h1 h2, hk, rnd_half_even_intCast, ← hk, mul_assoc, two_zpow_mul,
    show 23 - e + (e - 23) = 0 by ring, zpow_zero, mul_one]

/-- Naturals up to `2^24` are exactly representable. -/
theorem f32round_natCast (n : ℕ) (h : n ≤ 2 ^ 24) : f32round (n : ℚ) = n := by
  rcases Nat.eq_zero_or_pos n with h0 | h0
  · rw [h0]
    exact_mod_cast f32round_zero
  · have e0 : Int.log 2 ((n : ℚ)) = (Nat.log 2 n : ℤ) := Int.log_natCast 2 n
    set e : ℕ := Nat.log 2 n with he
    have hlow : (2 : ℕ) ^ e ≤ n := Nat.pow_log_le_self 2 h0.ne'
    have hhigh : n < 2 ^ (e + 1) := Nat.lt_pow_succ_log_self (by norm_num) n
    have hlowq : (2 : ℚ) ^ (e : ℤ) ≤ (n : ℚ) := by
      rw [zpow_natCast]
      exact_mod_cast hlow
    have hhighq : (n : ℚ) < (2 : ℚ) ^ ((e : ℤ) + 1) := by
      rw [show ((e : ℤ) + 1) = ((e + 1 : ℕ) : ℤ) by push_cast; ring, zpow_natCast]
      exact_mod_cast hhigh
    rcases le_or_lt (e : ℤ) 23 with he23 | he23
    · refine f32round_eq_self (e : ℤ) ((n : ℤ) * 2 ^ (23 - e)) hlowq hhighq ?_
      have : ((23 : ℤ) - e) = ((23 - e : ℕ) : ℤ) := by omega
      rw [this, zpow_natCast]
      push_cast
      ring
    · have he24 : (e : ℤ) = 24 := by
        have : (2 : ℕ) ^ e ≤ 2 ^ 24 := le_trans hlow h
        have : e ≤ 24 := (Nat.pow_le_pow_iff_right (by norm_num)).mp this
        omega
      have hn : n = 2 ^ 24 := by
        have h1 : (2 : ℕ) ^ 24 ≤ n := by
          have := hlow
          rw [show e = 24 by exact_mod_cast he24] at this
          exact this
        omega
      refine f32round_eq_self (e : ℤ) (2 ^ 23) hlowq hhighq ?_
      rw [hn, he24]
      norm_num

/-- `f32round` is monotone on the nonnegative reals. -/
theorem f32round_mono {x y : ℚ} (hx : 0 ≤ x) (hxy : x ≤ y) :
    f32round x ≤ f32round y := by
  rcases eq_or_lt_of_le hx with h0 | h0
  · rw [← h0, f32round_zero]
    exact f32round_nonneg (le_trans hx hxy)
  · have hy : 0 < y := lt_of_lt_of_le h0 hxy
    have hx1 : (2 : ℚ) ^ Int.log 2 x ≤ x := Int.zpow_log_le_self (by norm_num) h0
    have hx2 : x < (2 : ℚ) ^ (Int.log 2 x + 1) := Int.lt_zpow_succ_log_self (by norm_num) x
    have hy1 : (2 : ℚ) ^ Int.log 2 y ≤ y := Int.zpow_log_le_self (by norm_num) hy
    have hy2 : y < (2 : ℚ) ^ (Int.log 2 y + 1) := Int.lt_zpow_succ_log_self (by norm_num) y
    have hle : Int.log 2 x ≤ Int.log 2 y := Int.log_mono_right h0 hxy
    rcases eq_or_lt_of_le hle with heq | hlt
    · rw [f32round_pos_eval (Int.log 2 x) hx1 hx2, f32round_pos_eval (Int.log 2 y) hy1 hy2,
        ← heq]
      have hm : x * 2 ^ (23 - Int.log 2 x) ≤ y * 2 ^ (23 - Int.log 2 x) :=
        mul_le_mul_of_nonneg_right hxy (two_zpow_pos _).le
      have := rnd_half_even_mono hm
      exact mul_le_mul_of_nonneg_right (by exact_mod_cast this) (two_zpow_pos _).le
    · have hxu : f32round x ≤ (2 : ℚ) ^ (Int.log 2 x + 1) := by
        rw [f32round_pos_eval (Int.log 2 x) hx1 hx2]
        have hmx := significand_bounds (Int.log 2 x) hx1 hx2
        have hfl : Int.floor (x * 2 ^ (23 - Int.log 2 x)) < (2 : ℤ) ^ 24 := by
          have : (((2 : ℤ) ^ 24 : ℤ) : ℚ) = (2 : ℚ) ^ (24 : ℤ) := by norm_num
          have h24 := hmx.2
          rw [Int.floor_lt]
          push_cast
          exact_mod_cast h24
        have hrnd := rnd_half_even_floor_le (x * 2 ^ (23 - Int.log 2 x))
        have hrle : rnd_half_even (x * 2 ^ (23 - Int.log 2 x)) ≤ 2 ^ 24 := by omega
        calc (rnd_half_even (x * 2 ^ (23 - Int.log 2 x)) : ℚ) * 2 ^ (Int.log 2 x - 23)
            ≤ ((2 : ℤ) ^ 24 : ℤ) * 2 ^ (Int.log 2 x - 23) :=
              mul_le_mul_of_nonneg_right (by exact_mod_cast hrle) (two_zpow_pos _).le
          _ = (2 : ℚ) ^ (Int.log 2 x + 1) := by
              push_cast
              rw [show (16777216 : ℚ) = 2 ^ (24 : ℤ) by norm_num, two_zpow_mul]
              congr 1
              ring
      have hyl : (2 : ℚ) ^ (Int.log 2 y) ≤ f32round y := by
        rw [f32round_pos_eval (Int.log 2 y) hy1 hy2]
        have hmy := significand_bounds (Int.log 2 y) hy1 hy2
        have hfl : (2 : ℤ) ^ 23 ≤ Int.floor (y * 2 ^ (23 - Int.log 2 y)) := by
          rw [Int.le_floor]
          push_cast
          exact_mod_cast hmy.1
        have hrnd := rnd_half_even_floor_le (y * 2 ^ (23 - Int.log 2 y))
        have hrge : (2 : ℤ) ^ 23 ≤ rnd_half_even (y * 2 ^ (23 - Int.log 2 y)) := by omega
        calc (2 : ℚ) ^ (Int.log 2 y)
            = ((2 : ℤ) ^ 23 : ℤ) * 2 ^ (Int.log 2 y - 23) := by
              push_cast
              rw [show (8388608 : ℚ) = 2 ^ (23 : ℤ) by norm_num, two_zpow_mul]
              congr 1
              ring
          _ ≤ (rnd_half_even (y * 2 ^ (23 - Int.log 2 y)) : ℚ) * 2 ^ (Int.log 2 y - 23) :=
              mul_le_mul_of_nonneg_right (by exact_mod_cast hrge) (two_zpow_pos _).le
      calc f32round x ≤ (2 : ℚ) ^ (Int.log 2 x + 1) := hxu
        _ ≤ (2 : ℚ) ^ (Int.log 2 y) := zpow_le_zpow_right₀ (by norm_num) (by omega)
        _ ≤ f32round y := hyl

/-! ## Evaluation of the read-out -/

/-- Evaluation of `Axis::output_ranged` on a well-formed axis: the clamp of the
(possibly reflected) working value, which lands in `[min, max]`. -/
theorem axis_output_ranged_eval (a : Axis) (hmm : a.min ≤ a.max) :
    a.output_ranged = some (Max.max a.min
      (Min.min (if a.reversed then a.max - (a.value - a.min) else a.value) a.max)) ∧
    a.min ≤ Max.max a.min
      (Min.min (if a.reversed then a.max - (a.value - a.min) else a.value) a.max) ∧
    Max.max a.min
      (Min.min (if a.reversed then a.max - (a.value - a.min) else a.value) a.max) ≤ a.max := by
  refine ⟨?_, ?_, ?_⟩
  · unfold Axis.output_ranged
    rw [if_neg (by omega)]
  · omega
  · omega

/-- Evaluation of `Axis::output` on a well-formed axis and range: the floored
`f32` rescale of the clamped working value. -/
theorem axis_output_eval (a : Axis) (v rmin rmax : ℕ)
    (hmm : a.min < a.max) (hr : rmin ≤ rmax) (h16 : rmax ≤ 65535)
    (hv : a.output_ranged = some v) :
    a.output rmin rmax = some (f32_as_u16 (Rat.floor (f32rescale a.min a.max v rmin rmax))) := by
  unfold Axis.output
  rw [hv]
  simp only [if_neg (by omega : ¬ a.max = a.min)]
  rw [wsub_of_le rmax rmin hr h16]
  rfl

/-- Error analysis of the `f32` rescale: the result stays within
`[rmin, rmax + 1)`, so its floor stays within `[rmin, rmax]`. -/
theorem f32rescale_bounds (mn mx v rmin rmax : ℕ)
    (hmm : mn < mx) (hr : rmin ≤ rmax) (h16 : rmax ≤ 65535)
    (hv1 : mn ≤ v) (hv2 : v ≤ mx) :
    (rmin : ℚ) ≤ f32rescale mn mx v rmin rmax ∧
      f32rescale mn mx v rmin rmax < (rmax : ℚ) + 1 := by
  unfold f32rescale f32div f32mul f32add
  set d : ℚ := ((rmax - rmin : ℕ) : ℚ) with hd
  set m : ℚ := ((mx - mn : ℕ) : ℚ) with hm
  set w : ℚ := ((v - mn : ℕ) : ℚ) with hw
  have hd0 : 0 ≤ d := Nat.cast_nonneg _
  have hd1 : d ≤ 65535 := by
    rw [hd]
    exact_mod_cast le_trans (Nat.sub_le _ _) h16
  have hm1 : (1 : ℚ) ≤ m := by
    rw [hm]
    exact_mod_cast (by omega : 1 ≤ mx - mn)
  have hw0 : 0 ≤ w := Nat.cast_nonneg _
  have hwm : w ≤ m := by
    rw [hw, hm]
    exact_mod_cast (by omega : v - mn ≤ mx - mn)
  set s : ℚ := f32round (d / m) with hs
  set u : ℚ := w * s with hu
  set t : ℚ := f32round u with ht
  have hdm0 : 0 ≤ d / m := div_nonneg hd0 (by linarith)
  have hs0 : 0 ≤ s := f32round_nonneg hdm0
  have hu0 : 0 ≤ u := mul_nonneg hw0 hs0
  have ht0 : 0 ≤ t := f32round_nonneg hu0
  have hsu : s ≤ d / m * (1 + 1 / 2 ^ 24) := f32round_le_mul hdm0
  have hmne : m ≠ 0 := by linarith
  have huu : u ≤ d * (1 + 1 / 2 ^ 24) := by
    calc u = w * s := rfl
      _ ≤ m * s := mul_le_mul_of_nonneg_right hwm hs0
      _ ≤ m * (d / m * (1 + 1 / 2 ^ 24)) := mul_le_mul_of_nonneg_left hsu (by linarith)
      _ = d * (1 + 1 / 2 ^ 24) := by field_simp; ring
  have htu : t ≤ d * (1 + 1 / 2 ^ 24) * (1 + 1 / 2 ^ 24) := by
    calc t ≤ u * (1 + 1 / 2 ^ 24) := f32round_le_mul hu0
      _ ≤ d * (1 + 1 / 2 ^ 24) * (1 + 1 / 2 ^ 24) :=
          mul_le_mul_of_nonneg_right huu (by norm_num)
  have ht65536 : t ≤ 65536 := by nlinarith
  have hrm0 : (0 : ℚ) ≤ (rmin : ℚ) := Nat.cast_nonneg _
  constructor
  · have h1 : f32round ((rmin : ℚ)) ≤ f32round ((rmin : ℚ) + t) :=
      f32round_mono hrm0 (by linarith)
    rwa [f32round_natCast rmin (by omega)] at h1
  · have hFu : f32round ((rmin : ℚ) + t) ≤ ((rmin : ℚ) + t) * (1 + 1 / 2 ^ 24) :=
      f32round_le_mul (by linarith)
    have hrmin : (rmin : ℚ) ≤ 65535 := by exact_mod_cast le_trans hr h16
    have hsum : (rmin : ℚ) + d = (rmax : ℚ) := by
      rw [hd, Nat.cast_sub hr]
      ring
    nlinarith

/-- The `f32` rescale differs from the exact rational rescale by at most
`1/50` (the accumulated three roundings on values below `2^17`). -/
theorem f32rescale_near (mn mx v rmin rmax : ℕ)
    (hmm : mn < mx) (hr : rmin ≤ rmax) (h16 : rmax ≤ 65535)
    (hv1 : mn ≤ v) (hv2 : v ≤ mx) :
    |f32rescale mn mx v rmin rmax -
      ((rmin : ℚ) + ((v - mn : ℕ) : ℚ) *
        (((rmax - rmin : ℕ) : ℚ) / ((mx - mn : ℕ) : ℚ)))| ≤ 1 / 50 := by
  unfold f32rescale f32div f32mul f32add
  set d : ℚ := ((rmax - rmin : ℕ) : ℚ) with hd
  set m : ℚ := ((mx - mn : ℕ) : ℚ) with hm
  set w : ℚ := ((v - mn : ℕ) : ℚ) with hw
  have hd0 : 0 ≤ d := Nat.cast_nonneg _
  have hd1 : d ≤ 65535 := by
    rw [hd]
    exact_mod_cast le_trans (Nat.sub_le _ _) h16
  have hm1 : (1 : ℚ) ≤ m := by
    rw [hm]
    exact_mod_cast (by omega : 1 ≤ mx - mn)
  have hw0 : 0 ≤ w := Nat.cast_nonneg _
  have hwm : w ≤ m := by
    rw [hw, hm]
    exact_mod_cast (by omega : v - mn ≤ mx - mn)
  set s : ℚ := f32round (d / m) with hs
  set u : ℚ := w * s with hu
  set t : ℚ := f32round u with ht
  have hdm0 : 0 ≤ d / m := div_nonneg hd0 (by linarith)
  have hdmd : d / m ≤ d := div_le_self hd0 hm1
  have hs0 : 0 ≤ s := f32round_nonneg hdm0
  have hu0 : 0 ≤ u := mul_nonneg hw0 hs0
  have ht0 : 0 ≤ t := f32round_nonneg hu0
  have hmne : m ≠ 0 := by linarith
  have hwd : w * (d / m) ≤ d := by
    calc w * (d / m) ≤ m * (d / m) := mul_le_mul_of_nonneg_right hwm hdm0
      _ = d := by field_simp
  have hwd0 : 0 ≤ w * (d / m) := mul_nonneg hw0 hdm0
  have hserr := abs_le.mp (f32round_err hdm0)
  have huerr : |u - w * (d / m)| ≤ d / 2 ^ 24 := by
    have he : u - w * (d / m) = w * (s - d / m) := by rw [hu]; ring
    rw [he, abs_mul, abs_of_nonneg hw0]
    calc w * |s - d / m| ≤ w * (d / m / 2 ^ 24) :=
          mul_le_mul_of_nonneg_left (abs_le.mpr hserr) hw0
      _ = w * (d / m) / 2 ^ 24 := by ring
      _ ≤ d / 2 ^ 24 := (div_le_div_iff_of_pos_right (by norm_num)).mpr hwd
  have h3 := abs_le.mp huerr
  have hu65536 : u ≤ 65536 := by linarith
  have hterr := abs_le.mp (f32round_err hu0)
  have h2 : t - u ≤ 65536 / 2 ^ 24 ∧ -(65536 / 2 ^ 24) ≤ t - u := by
    constructor <;> linarith
  have htu : t ≤ 65537 := by linarith
  have hrmin : (rmin : ℚ) ≤ 65535 := by exact_mod_cast le_trans hr h16
  have hF0 : (0 : ℚ) ≤ (rmin : ℚ) + t := by positivity
  have hFerr := abs_le.mp (f32round_err hF0)
  have h1 : f32round ((rmin : ℚ) + t) - ((rmin : ℚ) + t) ≤ 131072 / 2 ^ 24 ∧
      -(131072 / 2 ^ 24) ≤ f32round ((rmin : ℚ) + t) - ((rmin : ℚ) + t) := by
    constructor <;> linarith
  have hsplit : f32round ((rmin : ℚ) + t) - ((rmin : ℚ) + w * (d / m)) =
      (f32round ((rmin : ℚ) + t) - ((rmin : ℚ) + t)) + (t - u) + (u - w * (d / m)) := by
    ring
  rw [hsplit, abs_le]
  constructor <;> linarith

/-- At the minimum working value the rescale is exact: the product is 0 and
`rmin` is exactly representable. -/
theorem f32rescale_at_min (mn mx rmin rmax : ℕ) (hr : rmin ≤ rmax) (h16 : rmax ≤ 65535) :
    f32rescale mn mx mn rmin rmax = (rmin : ℚ) := by
  unfold f32rescale f32div f32mul f32add
  rw [Nat.sub_self]
  rw [show ((0 : ℕ) : ℚ) = 0 from rfl, zero_mul, f32round_zero, add_zero,
    f32round_natCast rmin (by omega)]

/-- When the output span equals the axis span the scale is exactly 1 and the
whole rescale is exact integer arithmetic. -/
theorem f32rescale_same_span (mn mx v rmin rmax : ℕ)
    (hmm : mn < mx) (hspan : rmax - rmin = mx - mn) (hv1 : mn ≤ v) (hv2 : v ≤ mx)
    (h24 : v - mn + rmin ≤ 2 ^ 24) :
    f32rescale mn mx v rmin rmax = ((v - mn + rmin : ℕ) : ℚ) := by
  have h1 : f32round (1 : ℚ) = 1 := by
    have := f32round_natCast 1 (by norm_num)
    simpa using this
  have hmne : ((mx - mn : ℕ) : ℚ) ≠ 0 := by
    have h0 : (0 : ℕ) < mx - mn := by omega
    exact_mod_cast h0.ne'
  unfold f32rescale f32div f32mul f32add
  rw [hspan, div_self hmne, h1, mul_one, f32round_natCast (v - mn) (by omega)]
  rw [show (rmin : ℚ) + ((v - mn : ℕ) : ℚ) = ((v - mn + rmin : ℕ) : ℚ) by push_cast; ring,
    f32round_natCast _ h24]

/-! ## Concrete `f32` evaluations for the counterexamples -/

theorem rnd_half_even_eval_lt {q : ℚ} {f : ℤ} (hf : Int.floor q = f)
    (h : q - (f : ℚ) < 1 / 2) : rnd_half_even q = f := by
  unfold rnd_half_even
  rw [ratFloor_eq_intFloor, hf, if_pos h]

theorem f32round_31_7 : f32round (31 / 7 : ℚ) = 9287387 / 2097152 := by
  rw [f32round_pos_eval 2 (by norm_num) (by norm_num)]
  norm_num
  rw [rnd_half_even_eval_lt (f := 9287387) (by norm_num) (by norm_num)]
  norm_num

theorem f32round_65011709 : f32round (65011709 / 2097152 : ℚ) = 16252927 / 524288 := by
  rw [f32round_pos_eval 4 (by norm_num) (by norm_num)]
  norm_num
  rw [rnd_half_even_eval_lt (f := 16252927) (by norm_num) (by norm_num)]
  norm_num

theorem f32round_16252927 : f32round (16252927 / 524288 : ℚ) = 16252927 / 524288 := by
  apply f32round_eq_self 4 16252927 (by norm_num) (by norm_num)
  norm_num

/-- Floors of two rationals within `1/50` of each other differ by at most 1. -/
theorem floor_near {F R : ℚ} (h : |F - R| ≤ 1 / 50) :
    Int.floor R - 1 ≤ Int.floor F ∧ Int.floor F ≤ Int.floor R + 1 := by
  have h1 := abs_le.mp h
  have hR1 : (Int.floor R : ℚ) ≤ R := Int.floor_le R
  have hR2 : R < Int.floor R + 1 := Int.lt_floor_add_one R
  constructor
  · apply Int.le_floor.mpr
    push_cast
    linarith
  · have hlt : Int.floor F < Int.floor R + 2 := by
      rw [Int.floor_lt]
      push_cast
      linarith
    omega

/-- Transfer bounds on the rescale through the floor and the saturating
`as u16` cast. -/
theorem f32_as_u16_floor_eq {F : ℚ} {lo hi : ℕ} (h1 : (lo : ℚ) ≤ F)
    (h2 : F < (hi : ℚ) + 1) (hhi : hi ≤ 65535) :
    lo ≤ f32_as_u16 (Rat.floor F) ∧ f32_as_u16 (Rat.floor F) ≤ hi ∧
      ((f32_as_u16 (Rat.floor F)) : ℤ) = Int.floor F := by
  have hf1 : (lo : ℤ) ≤ Int.floor F := Int.le_floor.mpr (by exact_mod_cast h1)
  have hf2 : Int.floor F < (hi : ℤ) + 1 := by
    rw [Int.floor_lt]
    exact_mod_cast h2
  rw [ratFloor_eq_intFloor]
  unfold f32_as_u16
  refine ⟨?_, ?_, ?_⟩ <;> omega

/-- The concrete read-out exhibiting the `f32` off-by-one: an axis spanning
`[0, 7]` with working value 7, read out into `[0, 31]`, floors to 30, not 31,
because `fl(31/7)` rounds down. -/
theorem axis_output_0_7_31 (a : Axis) (hmn : a.min = 0) (hmx : a.max = 7)
    (hv : a.output_ranged = some 7) : a.output 0 31 = some 30 := by
  have heval := axis_output_eval a 7 0 31 (by omega) (by omega) (by omega) hv
  rw [heval]
  have hres : f32rescale a.min a.max 7 0 31 = 16252927 / 524288 := by
    rw [hmn, hmx]
    unfold f32rescale f32div f32mul f32add
    norm_num
    rw [f32round_31_7,
      show (7 : ℚ) * (9287387 / 2097152) = 65011709 / 2097152 by norm_num,
      f32round_65011709]
    exact f32round_16252927
  rw [hres, ratFloor_eq_intFloor,
    show Int.floor ((16252927 : ℚ) / 524288) = 30 by norm_num]
  rfl

/-- Read-out of a 0..128 axis into 0..128: the scale is exactly 1.0 and the
read-out returns the working value. -/
theorem axis128_output (o v : ℕ) (hv : v ≤ 128) :
    (⟨0, 128, false, 0, o, v⟩ : Axis).output 0 128 = some v := by
  have hour : (⟨0, 128, false, 0, o, v⟩ : Axis).output_ranged = some v := by
    unfold Axis.output_ranged
    dsimp only
    rw [if_neg (by omega)]
    simp only [Bool.false_eq_true, if_false]
    congr 1
    omega
  have heval := axis_output_eval ⟨0, 128, false, 0, o, v⟩ v 0 128 (by norm_num) (by norm_num)
    (by norm_num) hour
  rw [heval]
  show some (f32_as_u16 (Rat.floor (f32rescale 0 128 v 0 128))) = some v
  rw [f32rescale_same_span 0 128 v 0 128 (by norm_num) rfl (by omega) hv (by omega),
    ratFloor_eq_intFloor, Int.floor_natCast]
  unfold f32_as_u16
  congr 1
  omega

/-- C6: the Lerp scenario of the spec and the crate's own test: axis 0..128,
chain `[Lerp(0.5)]`, inputs 0,100,100,100,100 produce outputs
0, 50, 75, 87, 93 in range 0..128.  All intermediates are dyadic rationals
exactly representable in `f32`, and the read-out scale is exactly 1.0. -/
theorem lerp_scenario :
    runOutputs (Axis.new 0 128 false) [DynEffect.lerp (Lerp.new (1 / 2))]
      [0, 100, 100, 100, 100] =
      [some 0, some 50, some 75, some 87, some 93] := by
  norm_num [runOutputs, Axis.update, Axis.step_filter, chainRun, DynEffect.update,
    Lerp.update, Lerp.new, Axis.new, f32_as_u16, ratFloor_eq_intFloor, axis128_output]
  decide

/-- C4 counterexample: `output` is not a well-defined computation for every
Axis — `Axis::new` accepts `min > max` unchecked, and for such an axis the
working value's `clamp(min, max)` call asserts `min <= max` and panics, in
every build profile. -/
theorem axis_output_panic_counterexample :
    (Axis.new 5 3 false).output 0 10 = none := by decide

/-- C4 amended: for every Axis with `min < max` and every 16-bit range with
`range_min ≤ range_max`, `output` is well-defined (non-panicking) on any
working value, and its result lies within `[range_min, range_max]`; the edge
cases inside that domain are handled by saturating arithmetic and clamping
(the bound survives the `f32` rounding of scale, product and sum because the
accumulated error stays below 1/50 of a unit). -/
theorem axis_output_total (a : Axis) (rmin rmax : ℕ)
    (hmm : a.min < a.max) (hr : rmin ≤ rmax) (h16 : rmax ≤ 65535) :
    ∃ r : ℕ, a.output rmin rmax = some r ∧ rmin ≤ r ∧ r ≤ rmax := by
  obtain ⟨hout, hv1, hv2⟩ := axis_output_ranged_eval a hmm.le
  have heval := axis_output_eval a _ rmin rmax hmm hr h16 hout
  have hb := f32rescale_bounds a.min a.max _ rmin rmax hmm hr h16 hv1 hv2
  obtain ⟨hlo, hhi, _⟩ := f32_as_u16_floor_eq hb.1 hb.2 h16
  exact ⟨_, heval, hlo, hhi⟩

theorem axis_output_total_witness :
    ∃ r : ℕ, (Axis.new 0 10 false).output 0 10 = some r ∧ 0 ≤ r ∧ r ≤ 10 :=
  axis_output_total (Axis.new 0 10 false) 0 10 (by decide) (by decide) (by decide)

/-- C5: reflection law — for an axis with `min ≤ max` and a working value `v`
in `[min, max]`, `output` with `reversed = true` and value `v` equals `output`
with `reversed = false` and value `max - (v - min)`, for every output range. -/
theorem axis_reflection (mn mx sff ov v rmin rmax : ℕ)
    (hmm : mn ≤ mx) (hv1 : mn ≤ v) (hv2 : v ≤ mx) :
    Axis.output ⟨mn, mx, true, sff, ov, v⟩ rmin rmax =
      Axis.output ⟨mn, mx, false, sff, ov, mx - (v - mn)⟩ rmin rmax := by
  have h : Axis.output_ranged ⟨mn, mx, true, sff, ov, v⟩ =
      Axis.output_ranged ⟨mn, mx, false, sff, ov, mx - (v - mn)⟩ := by
    unfold Axis.output_ranged
    rfl
  unfold Axis.output
  rw [h]

theorem axis_reflection_witness :
    Axis.output ⟨0, 10, true, 0, 0, 3⟩ 0 10 = Axis.output ⟨0, 10, false, 0, 0, 7⟩ 0 10 :=
  axis_reflection 0 10 0 0 3 0 10 (by decide) (by decide) (by decide)

/-- C1 counterexample: the identity chain law fails on the code twice over.
First, for reversed axes: on `Axis::new(0, 10, reversed = true)` with
dead-zone disabled, after `update(0, [])` the read-out `output(0, 10)` is 10
while the claimed clamp-and-rescale of the raw value 0 is 0.  Second, even
with `reversed = false` the `f32` read-out arithmetic floors one below the
exact rescale: on `Axis::new(0, 7, false)` after `update(7, [])`,
`output(0, 31)` is 30 (because `fl(31/7)` rounds down and `7 * fl(31/7)`
rounds to `30.999998`), while the exact clamp-and-rescale is 31. -/
theorem identity_chain_counterexample :
    ((((Axis.new 0 10 true).update 0 []).1).output 0 10 = some 10 ∧
      specRescaleNat 0 10 0 0 10 = 0) ∧
    ((((Axis.new 0 7 false).update 7 []).1).output 0 31 = some 30 ∧
      specRescaleNat 0 7 7 0 31 = 31) := by
  refine ⟨⟨?_, ?_⟩, ?_, ?_⟩
  · have hour : (((Axis.new 0 10 true).update 0 []).1).output_ranged = some 10 := by decide
    have heval := axis_output_eval (((Axis.new 0 10 true).update 0 []).1) 10 0 10
      (by decide) (by decide) (by decide) hour
    rw [heval]
    show some (f32_as_u16 (Rat.floor (f32rescale 0 10 10 0 10))) = some 10
    rw [f32rescale_same_span 0 10 10 0 10 (by norm_num) rfl (by omega) (by omega) (by omega),
      ratFloor_eq_intFloor, Int.floor_natCast]
    rfl
  · norm_num [specRescaleNat, specRescale, ratFloor_eq_intFloor]
  · exact axis_output_0_7_31 (((Axis.new 0 7 false).update 7 []).1) (by decide) (by decide)
      (by decide)
  · norm_num [specRescaleNat, specRescale, ratFloor_eq_intFloor]
    decide

/-- C1 amended: identity chain law for non-reversed axes, up to the `f32`
rounding of the read-out — with the built-in dead-zone disabled
(`step_filter_factor = 0`), `reversed = false`, `min < max` and
`range_min ≤ range_max ≤ 65535`, `update(raw, [])` followed by
`output(range_min, range_max)` returns a value inside
`[range_min, range_max]` that differs by at most one from the exact
clamp-and-rescale-floored value (`specRescale`, written from the claim's
words); the single-precision read-out can floor one below or one above the
exact rescale. -/
theorem identity_chain_law (a : Axis) (raw rmin rmax : ℕ)
    (hrev : a.reversed = false) (hsff : a.step_filter_factor = 0)
    (hmm : a.min < a.max) (hr : rmin ≤ rmax) (h16 : rmax ≤ 65535) :
    ∃ r : ℕ, ((a.update raw []).1).output rmin rmax = some r ∧
      rmin ≤ r ∧ r ≤ rmax ∧
      specRescale a.min a.max raw rmin rmax - 1 ≤ (r : ℤ) ∧
      (r : ℤ) ≤ specRescale a.min a.max raw rmin rmax + 1 := by
  have hupd : (a.update raw []).1 = { a with value := raw } := by
    unfold Axis.update Axis.step_filter chainRun
    rw [if_pos hsff]
  rw [hupd]
  have hout : ({ a with value := raw } : Axis).output_ranged =
      some (Max.max a.min (Min.min raw a.max)) := by
    unfold Axis.output_ranged
    dsimp only
    rw [hrev]
    simp only [Bool.false_eq_true, if_false]
    rw [if_neg (by omega : ¬ a.max < a.min)]
  have hv1 : a.min ≤ Max.max a.min (Min.min raw a.max) := by omega
  have hv2 : Max.max a.min (Min.min raw a.max) ≤ a.max := by omega
  set v := Max.max a.min (Min.min raw a.max) with hvdef
  have heval := axis_output_eval { a with value := raw } v rmin rmax hmm hr h16 hout
  have hb := f32rescale_bounds a.min a.max v rmin rmax hmm hr h16 hv1 hv2
  have hnear := f32rescale_near a.min a.max v rmin rmax hmm hr h16 hv1 hv2
  obtain ⟨hlo, hhi, heq⟩ := f32_as_u16_floor_eq hb.1 hb.2 h16
  have hfn := floor_near hnear
  have hspec : specRescale a.min a.max raw rmin rmax =
      Int.floor ((rmin : ℚ) + ((v - a.min : ℕ) : ℚ) *
        (((rmax - rmin : ℕ) : ℚ) / ((a.max - a.min : ℕ) : ℚ))) := by
    unfold specRescale
    rw [ratFloor_eq_intFloor]
    congr 1
    rw [Nat.cast_sub hv1, Nat.cast_sub hr, Nat.cast_sub hmm.le]
  refine ⟨_, heval, hlo, hhi, ?_, ?_⟩
  · rw [hspec, heq]
    exact hfn.1
  · rw [hspec, heq]
    exact hfn.2

theorem identity_chain_law_witness :
    ∃ r : ℕ, (((Axis.new 0 4 false).update 5 []).1).output 0 4 = some r ∧
      0 ≤ r ∧ r ≤ 4 ∧
      specRescale 0 4 5 0 4 - 1 ≤ (r : ℤ) ∧ (r : ℤ) ≤ specRescale 0 4 5 0 4 + 1 :=
  identity_chain_law (Axis.new 0 4 false) 5 0 4 rfl rfl (by decide) (by decide) (by decide)

/-- C9 counterexample: a fresh reversed axis does not always read out
`range_max`.  `Axis::new(0, 7, true)` reflects the initial working value 0
to 7, and `output(0, 31)` computes `fl(7 * fl(31/7)) = 30.999998`, which
floors to 30, one below `range_max = 31`. -/
theorem axis_new_initial_counterexample :
    (Axis.new 0 7 true).output 0 31 = some 30 ∧ (30 : ℕ) ≠ 31 :=
  ⟨axis_output_0_7_31 (Axis.new 0 7 true) rfl rfl (by decide), by decide⟩

/-- C9 amended: `Axis::new(min, max, reversed)` initializes both the working
value and the dead-zone's last-accepted value to `min`; consequently, before
any update, `output(range_min, range_max)` with `min < max` and
`range_min ≤ range_max ≤ 65535` returns exactly `range_min` when
`reversed = false` (the rescale of `min` is exact in `f32`), and when
`reversed = true` returns a value `r` with `range_max - 1 ≤ r ≤ range_max`
(the `f32` rescale of the full span can floor one below `range_max`). -/
theorem axis_new_initial (mn mx rmin rmax : ℕ) (rev : Bool)
    (hmm : mn < mx) (hr : rmin ≤ rmax) (h16 : rmax ≤ 65535) :
    (Axis.new mn mx rev).old_value = mn ∧ (Axis.new mn mx rev).value = mn ∧
    (Axis.new mn mx false).output rmin rmax = some rmin ∧
    (∃ r : ℕ, (Axis.new mn mx true).output rmin rmax = some r ∧
      rmax - 1 ≤ r ∧ r ≤ rmax) := by
  refine ⟨rfl, rfl, ?_, ?_⟩
  · have hout : (Axis.new mn mx false).output_ranged = some mn := by
      unfold Axis.new Axis.output_ranged
      dsimp only
      rw [if_neg (by omega : ¬ mx < mn)]
      simp only [Bool.false_eq_true, if_false]
      congr 1
      omega
    have heval := axis_output_eval (Axis.new mn mx false) mn rmin rmax hmm hr h16 hout
    rw [heval]
    show some (f32_as_u16 (Rat.floor (f32rescale mn mx mn rmin rmax))) = some rmin
    rw [f32rescale_at_min mn mx rmin rmax hr h16, ratFloor_eq_intFloor, Int.floor_natCast]
    unfold f32_as_u16
    congr 1
    omega
  · have hout : (Axis.new mn mx true).output_ranged = some mx := by
      unfold Axis.new Axis.output_ranged
      dsimp only
      rw [if_neg (by omega : ¬ mx < mn), if_pos rfl]
      congr 1
      omega
    have heval := axis_output_eval (Axis.new mn mx true) mx rmin rmax hmm hr h16 hout
    have hb := f32rescale_bounds mn mx mx rmin rmax hmm hr h16 hmm.le le_rfl
    have hnear := f32rescale_near mn mx mx rmin rmax hmm hr h16 hmm.le le_rfl
    have hmne : ((mx - mn : ℕ) : ℚ) ≠ 0 := by
      have h0 : (0 : ℕ) < mx - mn := by omega
      exact_mod_cast h0.ne'
    have hR : (rmin : ℚ) + ((mx - mn : ℕ) : ℚ) *
        (((rmax - rmin : ℕ) : ℚ) / ((mx - mn : ℕ) : ℚ)) = (rmax : ℚ) := by
      rw [mul_comm, div_mul_cancel₀ _ hmne, Nat.cast_sub hr]
      ring
    rw [hR] at hnear
    have hnear2 := abs_le.mp hnear
    have hlow : ((rmax - 1 : ℕ) : ℚ) ≤ f32rescale mn mx mx rmin rmax := by
      rcases Nat.eq_zero_or_pos rmax with h0 | h0
      · have hz : (rmax - 1 : ℕ) = 0 := by omega
        rw [hz]
        calc ((0 : ℕ) : ℚ) = 0 := by norm_num
          _ ≤ (rmin : ℚ) := Nat.cast_nonneg _
          _ ≤ _ := hb.1
      · rw [Nat.cast_sub h0]
        push_cast
        linarith
    obtain ⟨hlo, hhi, _⟩ := f32_as_u16_floor_eq hlow hb.2 h16
    exact ⟨_, heval, hlo, hhi⟩

theorem axis_new_initial_witness :
    (Axis.new 2 9 true).old_value = 2 ∧ (Axis.new 2 9 true).value = 2 ∧
    (Axis.new 2 9 false).output 1 7 = some 1 ∧
    (∃ r : ℕ, (Axis.new 2 9 true).output 1 7 = some r ∧ 6 ≤ r ∧ r ≤ 7) :=
  axis_new_initial 2 9 1 7 true (by decide) (by decide) (by decide)
